import Mathlib

/-!
Verification of the SPSC ring buffer from `src/include/fadli/SPSCRingBuffer.hpp`.

The C++ class `fadli::SPSCRingBuffer<T>` is shallowly embedded: `std::size_t`
values become `Nat` with an explicit `% 2^64` wherever wraparound matters, the
slot array becomes a total function `Nat → α` (its allocated length is kept in
the ghost field `allocLen`, recording `new T[capacity_]`), and the sequential
semantics of the member functions becomes pure state-passing functions.
-/

namespace SPSC

/-- `size_t` subtraction `a - b` (wraps modulo `2^64`); meaningful for
`a b < 2^64`. -/
def sub64 (a b : Nat) : Nat := (a + 2^64 - b) % 2^64

/-- One smearing step `n |= n >> w` of `next_power_of_2`. -/
def orShift (w x : Nat) : Nat := x ||| (x >>> w)

/-- The bit-smearing of `next_power_of_2`: `n |= n>>1; ...; n |= n>>32`. -/
def npo2Smear (m : Nat) : Nat :=
  orShift 32 (orShift 16 (orShift 8 (orShift 4 (orShift 2 (orShift 1 m)))))

/-- `SPSCRingBuffer::next_power_of_2` (lines 66–77): round up to the next
power of two, on `size_t` (so `n + 1` overflows to `0` when the smeared value
is `2^64 - 1`). -/
def next_power_of_2 (n : Nat) : Nat :=
  if n = 0 then 1 else (npo2Smear (n - 1) + 1) % 2^64

/-- The state of a `SPSCRingBuffer<α>`.  `buffer_` is total; `allocLen` is the
ghost length of the array allocated by `new T[capacity_]` in the constructor's
initializer list. -/
structure RB (α : Type) where
  capacity_ : Nat
  index_mask_ : Nat
  allocLen : Nat
  buffer_ : Nat → α
  head_ : Nat
  tail_ : Nat
  tail_cache_ : Nat
  head_cache_ : Nat

variable {α : Type}

/-- The constructor (lines 99–107): `capacity_ = next_power_of_2(capacity > 0 ?
capacity : 1)`, `index_mask_ = capacity_ - 1` (a `size_t` subtraction),
`buffer_ = new T[capacity_]` — all in the initializer list — followed by the
body's fixup `if (capacity_ < 2) { capacity_ = 2; index_mask_ = 1; }`, which
does NOT reallocate the array. -/
def construct [Inhabited α] (c : Nat) : RB α :=
  let cap0 := next_power_of_2 (if 0 < c then c else 1)
  let s : RB α :=
    { capacity_ := cap0
      index_mask_ := sub64 cap0 1
      allocLen := cap0
      buffer_ := fun _ => default
      head_ := 0
      tail_ := 0
      tail_cache_ := 0
      head_cache_ := 0 }
  if cap0 < 2 then { s with capacity_ := 2, index_mask_ := 1 } else s

/-- `try_push` (lines 128–144), sequential semantics: returns the `bool`
result together with the successor state. -/
def try_push (s : RB α) (v : α) : Bool × RB α :=
  let current_tail := s.tail_
  let next_tail := (current_tail + 1) &&& s.index_mask_
  if next_tail = s.head_cache_ then
    let hc := s.head_
    if next_tail = hc then
      (false, { s with head_cache_ := hc })
    else
      (true, { s with head_cache_ := hc,
                      buffer_ := Function.update s.buffer_ current_tail v,
                      tail_ := next_tail })
  else
    (true, { s with buffer_ := Function.update s.buffer_ current_tail v,
                    tail_ := next_tail })

/-- The slot index written by `buffer_[current_tail] = item` in `try_push`,
when the push succeeds (`none` when the buffer is full and nothing is
written). -/
def try_push_writeIndex (s : RB α) : Option Nat :=
  let next_tail := (s.tail_ + 1) &&& s.index_mask_
  if next_tail = s.head_cache_ then
    if next_tail = s.head_ then none else some s.tail_
  else some s.tail_

/-- `front` (lines 176–187): non-destructive peek; returns
`some buffer_[head_]` (the pointer's pointee) or `none` for `nullptr`. -/
def front (s : RB α) : Option α × RB α :=
  let current_head := s.head_
  if current_head = s.tail_cache_ then
    let tc := s.tail_
    if current_head = tc then (none, { s with tail_cache_ := tc })
    else (some (s.buffer_ current_head), { s with tail_cache_ := tc })
  else (some (s.buffer_ current_head), s)

/-- `pop` (lines 193–197): unconditionally advances `head_`. -/
def pop (s : RB α) : RB α :=
  { s with head_ := (s.head_ + 1) &&& s.index_mask_ }

/-- `try_pop` (lines 206–222). -/
def try_pop (s : RB α) : Option α × RB α :=
  let current_head := s.head_
  if current_head = s.tail_cache_ then
    let tc := s.tail_
    if current_head = tc then (none, { s with tail_cache_ := tc })
    else (some (s.buffer_ current_head),
          { s with tail_cache_ := tc,
                   head_ := (current_head + 1) &&& s.index_mask_ })
  else (some (s.buffer_ current_head),
        { s with head_ := (current_head + 1) &&& s.index_mask_ })

/-- `size` (lines 253–257): `(tail_ - head_) & index_mask_`, with `size_t`
subtraction. -/
def size (s : RB α) : Nat := sub64 s.tail_ s.head_ &&& s.index_mask_

/-- `capacity` (lines 265–267): `capacity_ - 1` (never wraps: `capacity_ ≥ 2`
after construction). -/
def capacity (s : RB α) : Nat := s.capacity_ - 1

/-- `buffer_size` (lines 274–276). -/
def buffer_size (s : RB α) : Nat := s.capacity_

/-- The number of occupied slots, computed without wraparound (equal to the
code's `size()` on every reachable state). -/
def rbSize (s : RB α) : Nat := (s.tail_ + s.capacity_ - s.head_) % s.capacity_

/-- The abstract queue contents: the occupied slots from `head_` (oldest) to
`tail_` (newest). -/
def RBabs (s : RB α) : List α :=
  (List.range (rbSize s)).map fun i => s.buffer_ ((s.head_ + i) % s.capacity_)

/-- The sequential state invariant.  `P`, `Q`, `Qc`, `Pc` are the ghost
unbounded counters of pushes, pops, pops seen by the producer's `head_cache_`,
and pushes seen by the consumer's `tail_cache_`. -/
def Inv (s : RB α) : Prop :=
  ∃ k P Q Qc Pc : Nat,
    1 ≤ k ∧
    s.capacity_ = 2 ^ k ∧
    s.index_mask_ = 2 ^ k - 1 ∧
    Qc ≤ Q ∧ Q ≤ P ∧ P ≤ Qc + (2 ^ k - 1) ∧ Q ≤ Pc ∧ Pc ≤ P ∧
    s.head_ = Q % 2 ^ k ∧ s.tail_ = P % 2 ^ k ∧
    s.head_cache_ = Qc % 2 ^ k ∧ s.tail_cache_ = Pc % 2 ^ k

/-- Client calls: `try_push item`, `try_pop()`, `front()`, and bare `pop()`. -/
inductive Op (α : Type) where
  | push (v : α)
  | tpop
  | peek
  | deq
deriving DecidableEq

/-- Run a sequence of calls sequentially; returns the final state, the list of
successfully pushed values, and the list of values obtained from `try_pop`. -/
def run : RB α → List (Op α) → RB α × List α × List α
  | s, [] => (s, [], [])
  | s, Op.push v :: ops =>
      let r := try_push s v
      let t := run r.2 ops
      (t.1, (if r.1 then [v] else []) ++ t.2.1, t.2.2)
  | s, Op.tpop :: ops =>
      let r := try_pop s
      let t := run r.2 ops
      (t.1, t.2.1, r.1.toList ++ t.2.2)
  | s, Op.peek :: ops => run (front s).2 ops
  | s, Op.deq :: ops => run (pop s) ops

/-- Checks that every bare `pop()` in the sequence is called on a non-empty
buffer. -/
def safePops : RB α → List (Op α) → Bool
  | _, [] => true
  | s, Op.push v :: ops => safePops (try_push s v).2 ops
  | s, Op.tpop :: ops => safePops (try_pop s).2 ops
  | s, Op.peek :: ops => safePops (front s).2 ops
  | s, Op.deq :: ops => (s.head_ != s.tail_) && safePops (pop s) ops

/-! ### Characterization of `next_power_of_2`

The six or-shifts smear every bit below the most significant set bit, so for
`m < 2^64` the smeared value is `2 ^ m.size - 1`, and `next_power_of_2 n` is
`2 ^ (n-1).size` reduced modulo `2^64`. -/

/-- `x` has bit `i` set iff `m` has some bit in the window `[i, i+w)` set. -/
def covers (w m x : Nat) : Prop :=
  ∀ i, x.testBit i = true ↔ ∃ j, j < w ∧ m.testBit (i + j) = true

theorem covers_one (m : Nat) : covers 1 m m := by
  intro i
  constructor
  · intro h
    exact ⟨0, Nat.zero_lt_one, by simpa using h⟩
  · rintro ⟨j, hj, h⟩
    interval_cases j
    simpa using h

theorem covers_orShift {w m x : Nat} (h : covers w m x) :
    covers (w + w) m (orShift w x) := by
  intro i
  rw [orShift]
  simp only [Nat.testBit_or, Nat.testBit_shiftRight, Bool.or_eq_true]
  rw [h i, h (w + i)]
  constructor
  · rintro (⟨j, hj, hb⟩ | ⟨j, hj, hb⟩)
    · exact ⟨j, by omega, hb⟩
    · exact ⟨w + j, by omega, by rwa [show i + (w + j) = w + i + j by omega]⟩
  · rintro ⟨j, hj, hb⟩
    by_cases hjw : j < w
    · exact Or.inl ⟨j, hjw, hb⟩
    · exact Or.inr ⟨j - w, by omega,
        by rwa [show w + i + (j - w) = i + j by omega]⟩

theorem covers_smear (m : Nat) : covers 64 m (npo2Smear m) := by
  have h := covers_orShift (covers_orShift (covers_orShift (covers_orShift
    (covers_orShift (covers_orShift (covers_one m))))))
  simpa [npo2Smear] using h

/-- A number in `[2^k, 2^(k+1))` has bit `k` set. -/
theorem testBit_of_pow_le_of_lt {m k : Nat} (h1 : 2 ^ k ≤ m)
    (h2 : m < 2 ^ (k + 1)) : m.testBit k = true := by
  rw [Nat.testBit_to_div_mod, decide_eq_true_eq]
  have hpos : 0 < 2 ^ k := Nat.pos_pow_of_pos _ (by omega)
  have hlow : 1 ≤ m / 2 ^ k := (Nat.one_le_div_iff hpos).mpr h1
  have hup : m / 2 ^ k < 2 := by
    rw [Nat.div_lt_iff_lt_mul hpos]
    calc m < 2 ^ (k + 1) := h2
    _ = 2 * 2 ^ k := by ring
  omega

/-- The most significant set bit of a positive number sits at `size - 1`. -/
theorem testBit_size_pred {m : Nat} (hm : 0 < m) :
    m.testBit (m.size - 1) = true := by
  have h1 : 2 ^ (m.size - 1) ≤ m := by
    have := Nat.lt_size (m := m.size - 1) (n := m)
    exact this.mp (by have := Nat.size_pos.mpr hm; omega)
  have h2 : m < 2 ^ (m.size - 1 + 1) := by
    have hsz : m < 2 ^ m.size := Nat.lt_size_self m
    have := Nat.size_pos.mpr hm
    have : m.size - 1 + 1 = m.size := by omega
    rwa [this]
  exact testBit_of_pow_le_of_lt h1 h2

theorem npo2Smear_eq {m : Nat} (hm : m < 2 ^ 64) :
    npo2Smear m = 2 ^ m.size - 1 := by
  apply Nat.eq_of_testBit_eq
  intro i
  rw [Nat.testBit_two_pow_sub_one]
  have hcov := covers_smear m i
  have hsize : m.size ≤ 64 := Nat.size_le.mpr hm
  rcases Nat.lt_or_ge i m.size with hi | hi
  · have hpos : 0 < m := by
      by_contra h
      have : m = 0 := by omega
      simp [this, Nat.size_zero] at hi
    have : (npo2Smear m).testBit i = true := by
      rw [hcov]
      exact ⟨m.size - 1 - i, by omega,
        by rw [show i + (m.size - 1 - i) = m.size - 1 by omega]
           exact testBit_size_pred hpos⟩
    simp [this, hi]
  · have : (npo2Smear m).testBit i = false := by
      rw [Bool.eq_false_iff]
      intro h
      rcases hcov.mp h with ⟨j, _, hb⟩
      have : m.testBit (i + j) = false := by
        apply Nat.testBit_lt_two_pow
        calc m < 2 ^ m.size := Nat.lt_size_self m
        _ ≤ 2 ^ (i + j) := Nat.pow_le_pow_right (by omega) (by omega)
      rw [this] at hb
      exact Bool.false_ne_true hb
    rw [this, eq_comm, decide_eq_false_iff_not]
    omega

theorem next_power_of_2_eq {n : Nat} (h1 : 1 ≤ n) (h2 : n ≤ 2 ^ 64) :
    next_power_of_2 n = 2 ^ (n - 1).size % 2 ^ 64 := by
  rw [next_power_of_2, if_neg (by omega)]
  rw [npo2Smear_eq (by omega)]
  have : 0 < 2 ^ (n - 1).size := Nat.pos_pow_of_pos _ (by omega)
  congr 1
  omega

/-! ### Modular index arithmetic -/

theorem mod_sub_cancel {L a b : Nat} (hL : 0 < L) (hba : b ≤ a)
    (hd : a - b < L) : (a % L + L - b % L) % L = a - b := by
  set d := a - b with hdd
  have ha : a = b + d := by omega
  have hr : b % L < L := Nat.mod_lt _ hL
  have hmod : a % L = (b % L + d) % L := by
    rw [Nat.mod_add_mod, ha]
  rcases Nat.lt_or_ge (b % L + d) L with hcase | hcase
  · rw [hmod, Nat.mod_eq_of_lt hcase,
      show b % L + d + L - b % L = d + L by omega, Nat.add_mod_right,
      Nat.mod_eq_of_lt hd]
  · have : (b % L + d) % L = b % L + d - L := by
      rw [Nat.mod_eq_sub_mod hcase, Nat.mod_eq_of_lt (by omega)]
    rw [hmod, this, show b % L + d - L + L - b % L = d by omega,
      Nat.mod_eq_of_lt hd]

theorem mod_eq_iff_of_le {L a b : Nat} (hba : b ≤ a)
    (hd : a - b ≤ L) : a % L = b % L ↔ (a = b ∨ a - b = L) := by
  constructor
  · intro h
    have hdvd : L ∣ a - b := (Nat.modEq_iff_dvd' hba).mp h.symm
    rcases Nat.eq_zero_or_pos (a - b) with h0 | hpos
    · left; omega
    · right
      have := Nat.le_of_dvd hpos hdvd
      omega
  · rintro (h | h)
    · rw [h]
    · have : a = b + L := by omega
      rw [this, Nat.add_mod_right]

theorem mod_ne_of_lt_of_lt {L a b : Nat} (hba : b < a)
    (hd : a - b < L) : a % L ≠ b % L := by
  intro h
  rcases (mod_eq_iff_of_le (by omega) (by omega)).mp h with h1 | h1 <;> omega

/-! ### The constructor -/

/-- The post-fixup `capacity_` is the clamp of the rounded request at `2`. -/
theorem construct_capacity_ [Inhabited α] (c : Nat) :
    (construct (α := α) c).capacity_ = max (next_power_of_2 (max c 1)) 2 := by
  have hif : (if 0 < c then c else 1) = max c 1 := by split <;> omega
  rw [construct]
  simp only [hif]
  rcases Nat.lt_or_ge (next_power_of_2 (max c 1)) 2 with h | h
  · rw [if_pos h]
    show (2 : Nat) = max (next_power_of_2 (max c 1)) 2
    omega
  · rw [if_neg (by omega)]
    show next_power_of_2 (max c 1) = max (next_power_of_2 (max c 1)) 2
    omega

/-- The array allocated by `new T[capacity_]` has the pre-fixup length. -/
theorem construct_allocLen [Inhabited α] (c : Nat) :
    (construct (α := α) c).allocLen = next_power_of_2 (max c 1) := by
  have hif : (if 0 < c then c else 1) = max c 1 := by split <;> omega
  rw [construct]
  simp only [hif]
  split <;> rfl

/-- After construction, `capacity_` is a power of two at least `2`,
`index_mask_ = capacity_ - 1`, and all indices are `0`. -/
theorem construct_spec [Inhabited α] {c : Nat} (hc : c < 2 ^ 64) :
    ∃ k, 1 ≤ k ∧ k ≤ 63 ∧
      (construct (α := α) c).capacity_ = 2 ^ k ∧
      (construct (α := α) c).index_mask_ = 2 ^ k - 1 ∧
      (construct (α := α) c).head_ = 0 ∧
      (construct (α := α) c).tail_ = 0 ∧
      (construct (α := α) c).head_cache_ = 0 ∧
      (construct (α := α) c).tail_cache_ = 0 := by
  have hif : (if 0 < c then c else 1) = max c 1 := by split <;> omega
  have h1 : 1 ≤ max c 1 := by omega
  have h2 : max c 1 ≤ 2 ^ 64 := by
    have : (2 : Nat) ^ 64 = 18446744073709551616 := by norm_num
    omega
  have hcap : next_power_of_2 (max c 1) = 2 ^ (max c 1 - 1).size % 2 ^ 64 :=
    next_power_of_2_eq h1 h2
  have hs64 : (max c 1 - 1).size ≤ 64 := Nat.size_le.mpr (by omega)
  rw [construct]
  simp only [hif]
  rcases Nat.lt_or_ge (next_power_of_2 (max c 1)) 2 with h | h
  · rw [if_pos h]
    exact ⟨1, by omega, by omega, rfl, rfl, rfl, rfl, rfl, rfl⟩
  · rw [if_neg (by omega)]
    set m := (max c 1 - 1).size with hm
    have hmne : m ≠ 64 := by
      intro h64
      rw [h64] at hcap
      simp [Nat.mod_self] at hcap
      omega
    have hlt : 2 ^ m < 2 ^ 64 := Nat.pow_lt_pow_right (by omega) (by omega)
    have hcap' : next_power_of_2 (max c 1) = 2 ^ m := by
      rw [hcap, Nat.mod_eq_of_lt hlt]
    have hm1 : 1 ≤ m := by
      by_contra hm0
      have : m = 0 := by omega
      rw [this] at hcap'
      simp at hcap'
      omega
    refine ⟨m, hm1, by omega, hcap', ?_, rfl, rfl, rfl, rfl⟩
    show sub64 (next_power_of_2 (max c 1)) 1 = 2 ^ m - 1
    rw [hcap', sub64, show 2 ^ m + 2 ^ 64 - 1 = (2 ^ m - 1) + 2 ^ 64 by omega,
      Nat.add_mod_right, Nat.mod_eq_of_lt (by omega)]

theorem construct_Inv [Inhabited α] {c : Nat} (hc : c < 2 ^ 64) :
    Inv (construct (α := α) c) := by
  obtain ⟨k, hk1, _, hcap, hmask, hh, ht, hhc, htc⟩ := construct_spec (α := α) hc
  exact ⟨k, 0, 0, 0, 0, hk1, hcap, hmask, le_refl 0, le_refl 0, by omega,
    le_refl 0, le_refl 0, by rw [hh, Nat.zero_mod], by rw [ht, Nat.zero_mod],
    by rw [hhc, Nat.zero_mod], by rw [htc, Nat.zero_mod]⟩

theorem construct_rbSize [Inhabited α] {c : Nat} (hc : c < 2 ^ 64) :
    rbSize (construct (α := α) c) = 0 := by
  obtain ⟨k, _, _, hcap, _, hh, ht, _, _⟩ := construct_spec (α := α) hc
  rw [rbSize, hcap, hh, ht]
  simp [Nat.mod_self]

theorem construct_RBabs [Inhabited α] {c : Nat} (hc : c < 2 ^ 64) :
    RBabs (construct (α := α) c) = [] := by
  rw [RBabs, construct_rbSize hc]
  rfl

/-! ### Ghost bookkeeping -/

theorem rbSize_ghost {s : RB α} {k P Q : Nat} (hcap : s.capacity_ = 2 ^ k)
    (hh : s.head_ = Q % 2 ^ k) (ht : s.tail_ = P % 2 ^ k) (hQP : Q ≤ P)
    (hlt : P - Q < 2 ^ k) : rbSize s = P - Q := by
  rw [rbSize, hcap, hh, ht]
  exact mod_sub_cancel (Nat.pos_pow_of_pos _ (by omega)) hQP hlt

theorem RBabs_ghost {s : RB α} {k P Q : Nat} (hcap : s.capacity_ = 2 ^ k)
    (hh : s.head_ = Q % 2 ^ k) (ht : s.tail_ = P % 2 ^ k) (hQP : Q ≤ P)
    (hlt : P - Q < 2 ^ k) :
    RBabs s = (List.range (P - Q)).map fun i => s.buffer_ ((Q + i) % 2 ^ k) := by
  rw [RBabs, rbSize_ghost hcap hh ht hQP hlt, hcap]
  apply List.map_congr_left
  intro i _
  rw [hh, Nat.mod_add_mod]

theorem rbSize_le_of_Inv {s : RB α} (h : Inv s) :
    rbSize s ≤ s.capacity_ - 1 := by
  obtain ⟨k, P, Q, Qc, Pc, hk, hcap, _, hQcQ, hQP, hPQc, _, _, hh, ht, _, _⟩ := h
  rw [rbSize_ghost hcap hh ht hQP (by omega), hcap]
  omega

/-- `RBabs` only looks at the capacity, the two indices, and the slots. -/
theorem RBabs_congr {s t : RB α} (hcap : t.capacity_ = s.capacity_)
    (hh : t.head_ = s.head_) (ht : t.tail_ = s.tail_)
    (hb : t.buffer_ = s.buffer_) : RBabs t = RBabs s := by
  rw [RBabs, RBabs, rbSize, rbSize, hcap, hh, ht, hb]

/-- Writing `v` at `tail_` and advancing `tail_` appends `v` to the abstract
contents. -/
theorem RBabs_push {s t : RB α} {k P Q : Nat} {v : α} (hk : 1 ≤ k)
    (hcap : s.capacity_ = 2 ^ k) (hh : s.head_ = Q % 2 ^ k)
    (ht : s.tail_ = P % 2 ^ k) (hQP : Q ≤ P) (hlt : P - Q < 2 ^ k - 1)
    (htcap : t.capacity_ = s.capacity_) (hth : t.head_ = s.head_)
    (htt : t.tail_ = (P + 1) % 2 ^ k)
    (htb : t.buffer_ = Function.update s.buffer_ s.tail_ v) :
    RBabs t = RBabs s ++ [v] := by
  have hL : 0 < 2 ^ k := Nat.pos_pow_of_pos _ (by omega)
  have habs_s := RBabs_ghost hcap hh ht hQP (by omega)
  have habs_t := RBabs_ghost (P := P + 1) (Q := Q) (htcap.trans hcap)
    (hth.trans hh) htt (by omega) (by omega)
  rw [habs_t, habs_s, show P + 1 - Q = (P - Q) + 1 by omega, List.range_succ,
    List.map_append]
  congr 1
  · apply List.map_congr_left
    intro i hi
    rw [List.mem_range] at hi
    rw [htb, ht]
    have hne : (Q + i) % 2 ^ k ≠ P % 2 ^ k :=
      Ne.symm (mod_ne_of_lt_of_lt (L := 2 ^ k) (a := P) (b := Q + i)
        (by omega) (by omega))
    rw [Function.update_noteq hne]
  · simp only [List.map_cons, List.map_nil]
    rw [htb, ht, show Q + (P - Q) = P by omega, Function.update_same]

/-- Advancing `head_` uncorks the oldest element of the abstract contents. -/
theorem RBabs_advance {s t : RB α} {k P Q : Nat} (hk : 1 ≤ k)
    (hcap : s.capacity_ = 2 ^ k) (hh : s.head_ = Q % 2 ^ k)
    (ht : s.tail_ = P % 2 ^ k) (hQP : Q < P) (hlt : P - Q < 2 ^ k)
    (htcap : t.capacity_ = s.capacity_) (hth : t.head_ = (Q + 1) % 2 ^ k)
    (htt : t.tail_ = s.tail_) (htb : t.buffer_ = s.buffer_) :
    RBabs s = s.buffer_ s.head_ :: RBabs t := by
  have hL : 0 < 2 ^ k := Nat.pos_pow_of_pos _ (by omega)
  have habs_s := RBabs_ghost hcap hh ht (by omega) hlt
  have habs_t := RBabs_ghost (P := P) (Q := Q + 1) (htcap.trans hcap) hth
    (htt.trans ht) (by omega) (by omega)
  rw [habs_s, habs_t, htb, show P - Q = (P - (Q + 1)) + 1 by omega,
    List.range_succ_eq_map, List.map_cons]
  congr 1
  · rw [hh, Nat.add_zero]
  · rw [List.map_map]
    apply List.map_congr_left
    intro i _
    simp only [Function.comp_apply]
    rw [show Q + Nat.succ i = Q + 1 + i by omega]

/-! ### Sequential behaviour of the operations under the invariant -/

/-- On a full buffer `try_push` fails and — because the refreshed
`head_cache_` is rewritten with its current value — leaves the state exactly
unchanged. -/
theorem try_push_full {s : RB α} (h : Inv s) (v : α)
    (hfull : rbSize s = s.capacity_ - 1) : try_push s v = (false, s) := by
  obtain ⟨k, P, Q, Qc, Pc, hk, hcap, hmask, hQcQ, hQP, hPQc, hQPc, hPcP,
    hh, ht, hhc, htc⟩ := h
  have hL : 0 < 2 ^ k := Nat.pos_pow_of_pos _ (by omega)
  have hn : rbSize s = P - Q := rbSize_ghost hcap hh ht hQP (by omega)
  rw [hn, hcap] at hfull
  have hQc : Qc = Q := by omega
  have hnext : (s.tail_ + 1) &&& s.index_mask_ = (P + 1) % 2 ^ k := by
    rw [ht, hmask, Nat.and_pow_two_sub_one_eq_mod, Nat.mod_add_mod]
  have hc1 : (s.tail_ + 1) &&& s.index_mask_ = s.head_cache_ := by
    rw [hnext, hhc]
    exact (mod_eq_iff_of_le (by omega) (by omega)).mpr (Or.inr (by omega))
  have hc2 : (s.tail_ + 1) &&& s.index_mask_ = s.head_ := by
    rw [hnext, hh]
    exact (mod_eq_iff_of_le (by omega) (by omega)).mpr (Or.inr (by omega))
  simp only [try_push]
  rw [if_pos hc1, if_pos hc2]
  have heq : s.head_ = s.head_cache_ := by rw [hh, hhc, hQc]
  exact congrArg (fun x => ((false : Bool), { s with head_cache_ := x })) heq

/-- On a non-full buffer `try_push` succeeds, preserves the invariant, and
appends the item to the abstract contents. -/
theorem try_push_ok {s : RB α} (h : Inv s) (v : α)
    (hlt : rbSize s < s.capacity_ - 1) :
    (try_push s v).1 = true ∧ Inv (try_push s v).2 ∧
    RBabs (try_push s v).2 = RBabs s ++ [v] := by
  obtain ⟨k, P, Q, Qc, Pc, hk, hcap, hmask, hQcQ, hQP, hPQc, hQPc, hPcP,
    hh, ht, hhc, htc⟩ := h
  have hL : 0 < 2 ^ k := Nat.pos_pow_of_pos _ (by omega)
  have hn : rbSize s = P - Q := rbSize_ghost hcap hh ht hQP (by omega)
  rw [hn, hcap] at hlt
  have hnext : (s.tail_ + 1) &&& s.index_mask_ = (P + 1) % 2 ^ k := by
    rw [ht, hmask, Nat.and_pow_two_sub_one_eq_mod, Nat.mod_add_mod]
  by_cases hA : (s.tail_ + 1) &&& s.index_mask_ = s.head_cache_
  · have hB : ¬((s.tail_ + 1) &&& s.index_mask_ = s.head_) := by
      rw [hnext, hh]
      intro hEq
      rcases (mod_eq_iff_of_le (by omega) (by omega)).mp hEq with h1 | h1 <;>
        omega
    simp only [try_push]
    rw [if_pos hA, if_neg hB]
    exact ⟨rfl,
      ⟨k, P + 1, Q, Q, Pc, hk, hcap, hmask, le_refl Q, by omega, by omega,
        hQPc, by omega, hh, hnext, hh, htc⟩,
      RBabs_push hk hcap hh ht hQP hlt rfl rfl hnext rfl⟩
  · have hnotfull : P < Qc + (2 ^ k - 1) := by
      rcases Nat.lt_or_ge P (Qc + (2 ^ k - 1)) with h1 | h1
      · exact h1
      · exact absurd (by
          rw [hnext, hhc]
          exact (mod_eq_iff_of_le (by omega) (by omega)).mpr
            (Or.inr (by omega))) hA
    simp only [try_push]
    rw [if_neg hA]
    exact ⟨rfl,
      ⟨k, P + 1, Q, Qc, Pc, hk, hcap, hmask, hQcQ, by omega, by omega,
        hQPc, by omega, hh, hnext, hhc, htc⟩,
      RBabs_push hk hcap hh ht hQP hlt rfl rfl hnext rfl⟩

/-- On an empty buffer `try_pop` returns `none` and — because the refreshed
`tail_cache_` already equals `tail_` — leaves the state exactly unchanged. -/
theorem try_pop_empty {s : RB α} (h : Inv s) (h0 : rbSize s = 0) :
    try_pop s = (none, s) := by
  obtain ⟨k, P, Q, Qc, Pc, hk, hcap, hmask, hQcQ, hQP, hPQc, hQPc, hPcP,
    hh, ht, hhc, htc⟩ := h
  have hL : 0 < 2 ^ k := Nat.pos_pow_of_pos _ (by omega)
  have hn : rbSize s = P - Q := rbSize_ghost hcap hh ht hQP (by omega)
  have hPQ : P = Q := by omega
  have hPc : Pc = Q := by omega
  have hc1 : s.head_ = s.tail_cache_ := by rw [hh, htc, hPc]
  have hc2 : s.head_ = s.tail_ := by rw [hh, ht, hPQ]
  simp only [try_pop]
  rw [if_pos hc1, if_pos hc2]
  have heq : s.tail_ = s.tail_cache_ := by rw [ht, htc, hPQ, hPc]
  exact congrArg (fun x => ((none : Option α), { s with tail_cache_ := x })) heq

/-- On a non-empty buffer `try_pop` returns the slot at `head_`, preserves the
invariant, and removes the head of the abstract contents. -/
theorem try_pop_ok {s : RB α} (h : Inv s) (h0 : 0 < rbSize s) :
    (try_pop s).1 = some (s.buffer_ s.head_) ∧ Inv (try_pop s).2 ∧
    RBabs s = s.buffer_ s.head_ :: RBabs (try_pop s).2 := by
  obtain ⟨k, P, Q, Qc, Pc, hk, hcap, hmask, hQcQ, hQP, hPQc, hQPc, hPcP,
    hh, ht, hhc, htc⟩ := h
  have hL : 0 < 2 ^ k := Nat.pos_pow_of_pos _ (by omega)
  have hn : rbSize s = P - Q := rbSize_ghost hcap hh ht hQP (by omega)
  rw [hn] at h0
  have hheadnext : (s.head_ + 1) &&& s.index_mask_ = (Q + 1) % 2 ^ k := by
    rw [hh, hmask, Nat.and_pow_two_sub_one_eq_mod, Nat.mod_add_mod]
  by_cases hA : s.head_ = s.tail_cache_
  · have hB : ¬(s.head_ = s.tail_) := by
      rw [hh, ht]
      intro hEq
      rcases (mod_eq_iff_of_le hQP (by omega)).mp hEq.symm with h1 | h1 <;>
        omega
    simp only [try_pop]
    rw [if_pos hA, if_neg hB]
    exact ⟨rfl,
      ⟨k, P, Q + 1, Qc, P, hk, hcap, hmask, by omega, by omega, hPQc,
        by omega, le_refl P, hheadnext, ht, hhc, ht⟩,
      RBabs_advance hk hcap hh ht (by omega) (by omega) rfl hheadnext rfl rfl⟩
  · have hPcQ : Q < Pc := by
      rcases Nat.eq_or_lt_of_le hQPc with h1 | h1
      · exact absurd (by rw [hh, htc, h1]) hA
      · exact h1
    simp only [try_pop]
    rw [if_neg hA]
    exact ⟨rfl,
      ⟨k, P, Q + 1, Qc, Pc, hk, hcap, hmask, by omega, by omega, hPQc,
        by omega, hPcP, hheadnext, ht, hhc, htc⟩,
      RBabs_advance hk hcap hh ht (by omega) (by omega) rfl hheadnext rfl rfl⟩

/-- `front` never touches `head_`, `tail_`, the slots, or the capacity. -/
theorem front_frame (s : RB α) :
    (front s).2.head_ = s.head_ ∧ (front s).2.tail_ = s.tail_ ∧
    (front s).2.buffer_ = s.buffer_ ∧ (front s).2.capacity_ = s.capacity_ ∧
    (front s).2.index_mask_ = s.index_mask_ := by
  simp only [front]
  by_cases h1 : s.head_ = s.tail_cache_
  · rw [if_pos h1]
    by_cases h2 : s.head_ = s.tail_
    · rw [if_pos h2]
      exact ⟨rfl, rfl, rfl, rfl, rfl⟩
    · rw [if_neg h2]
      exact ⟨rfl, rfl, rfl, rfl, rfl⟩
  · rw [if_neg h1]
    exact ⟨rfl, rfl, rfl, rfl, rfl⟩

theorem front_RBabs (s : RB α) : RBabs (front s).2 = RBabs s := by
  obtain ⟨h1, h2, h3, h4, _⟩ := front_frame s
  exact RBabs_congr h4 h1 h2 h3

/-- On an empty buffer `front` returns `none` and leaves the state exactly
unchanged. -/
theorem front_empty {s : RB α} (h : Inv s) (h0 : rbSize s = 0) :
    front s = (none, s) := by
  obtain ⟨k, P, Q, Qc, Pc, hk, hcap, hmask, hQcQ, hQP, hPQc, hQPc, hPcP,
    hh, ht, hhc, htc⟩ := h
  have hL : 0 < 2 ^ k := Nat.pos_pow_of_pos _ (by omega)
  have hn : rbSize s = P - Q := rbSize_ghost hcap hh ht hQP (by omega)
  have hPQ : P = Q := by omega
  have hPc : Pc = Q := by omega
  have hc1 : s.head_ = s.tail_cache_ := by rw [hh, htc, hPc]
  have hc2 : s.head_ = s.tail_ := by rw [hh, ht, hPQ]
  simp only [front]
  rw [if_pos hc1, if_pos hc2]
  have heq : s.tail_ = s.tail_cache_ := by rw [ht, htc, hPQ, hPc]
  exact congrArg (fun x => ((none : Option α), { s with tail_cache_ := x })) heq

/-- On a non-empty buffer `front` returns (a pointer to) the slot at
`head_`. -/
theorem front_some {s : RB α} (h : Inv s) (h0 : 0 < rbSize s) :
    (front s).1 = some (s.buffer_ s.head_) := by
  obtain ⟨k, P, Q, Qc, Pc, hk, hcap, hmask, hQcQ, hQP, hPQc, hQPc, hPcP,
    hh, ht, hhc, htc⟩ := h
  have hL : 0 < 2 ^ k := Nat.pos_pow_of_pos _ (by omega)
  have hn : rbSize s = P - Q := rbSize_ghost hcap hh ht hQP (by omega)
  rw [hn] at h0
  by_cases hA : s.head_ = s.tail_cache_
  · have hB : ¬(s.head_ = s.tail_) := by
      rw [hh, ht]
      intro hEq
      rcases (mod_eq_iff_of_le hQP (by omega)).mp hEq.symm with h1 | h1 <;>
        omega
    simp only [front]
    rw [if_pos hA, if_neg hB]
  · simp only [front]
    rw [if_neg hA]

theorem front_Inv {s : RB α} (h : Inv s) : Inv (front s).2 := by
  obtain ⟨k, P, Q, Qc, Pc, hk, hcap, hmask, hQcQ, hQP, hPQc, hQPc, hPcP,
    hh, ht, hhc, htc⟩ := h
  simp only [front]
  by_cases h1 : s.head_ = s.tail_cache_
  · rw [if_pos h1]
    by_cases h2 : s.head_ = s.tail_
    · rw [if_pos h2]
      exact ⟨k, P, Q, Qc, P, hk, hcap, hmask, hQcQ, hQP, hPQc, hQP,
        le_refl P, hh, ht, hhc, ht⟩
    · rw [if_neg h2]
      exact ⟨k, P, Q, Qc, P, hk, hcap, hmask, hQcQ, hQP, hPQc, hQP,
        le_refl P, hh, ht, hhc, ht⟩
  · rw [if_neg h1]
    exact ⟨k, P, Q, Qc, Pc, hk, hcap, hmask, hQcQ, hQP, hPQc, hQPc, hPcP,
      hh, ht, hhc, htc⟩

/-! ### Frame lemmas for capacity and mask -/

theorem try_push_caps (s : RB α) (v : α) :
    (try_push s v).2.capacity_ = s.capacity_ ∧
    (try_push s v).2.index_mask_ = s.index_mask_ := by
  simp only [try_push]
  by_cases h1 : (s.tail_ + 1) &&& s.index_mask_ = s.head_cache_
  · rw [if_pos h1]
    by_cases h2 : (s.tail_ + 1) &&& s.index_mask_ = s.head_
    · rw [if_pos h2]
      exact ⟨rfl, rfl⟩
    · rw [if_neg h2]
      exact ⟨rfl, rfl⟩
  · rw [if_neg h1]
    exact ⟨rfl, rfl⟩

theorem try_pop_caps (s : RB α) :
    (try_pop s).2.capacity_ = s.capacity_ ∧
    (try_pop s).2.index_mask_ = s.index_mask_ := by
  simp only [try_pop]
  by_cases h1 : s.head_ = s.tail_cache_
  · rw [if_pos h1]
    by_cases h2 : s.head_ = s.tail_
    · rw [if_pos h2]
      exact ⟨rfl, rfl⟩
    · rw [if_neg h2]
      exact ⟨rfl, rfl⟩
  · rw [if_neg h1]
    exact ⟨rfl, rfl⟩

theorem RBabs_length (s : RB α) : (RBabs s).length = rbSize s := by
  simp [RBabs]

/-! ### Runs of call sequences -/

/-- No call ever changes `capacity_` or `index_mask_`. -/
theorem run_caps (ops : List (Op α)) : ∀ s : RB α,
    (run s ops).1.capacity_ = s.capacity_ ∧
    (run s ops).1.index_mask_ = s.index_mask_ := by
  induction ops with
  | nil => exact fun s => ⟨rfl, rfl⟩
  | cons op ops ih =>
    intro s
    cases op with
    | push v =>
      obtain ⟨h1, h2⟩ := try_push_caps s v
      obtain ⟨h3, h4⟩ := ih (try_push s v).2
      exact ⟨h3.trans h1, h4.trans h2⟩
    | tpop =>
      obtain ⟨h1, h2⟩ := try_pop_caps s
      obtain ⟨h3, h4⟩ := ih (try_pop s).2
      exact ⟨h3.trans h1, h4.trans h2⟩
    | peek =>
      obtain ⟨_, _, _, h1, h2⟩ := front_frame s
      obtain ⟨h3, h4⟩ := ih (front s).2
      exact ⟨h3.trans h1, h4.trans h2⟩
    | deq =>
      exact ih (pop s)

/-- FIFO: in a run without bare `pop()` calls, starting from any state
satisfying the invariant, the popped values followed by the final contents
are the initial contents followed by the successfully pushed values. -/
theorem run_spec (ops : List (Op α)) : ∀ s : RB α, Inv s → Op.deq ∉ ops →
    Inv (run s ops).1 ∧
    (run s ops).2.2 ++ RBabs (run s ops).1 = RBabs s ++ (run s ops).2.1 := by
  induction ops with
  | nil =>
    intro s hs _
    exact ⟨hs, by simp [run]⟩
  | cons op ops ih =>
    intro s hs hnd
    have hnd' : Op.deq ∉ ops := fun hmem => hnd (List.mem_cons_of_mem _ hmem)
    cases op with
    | push v =>
      rcases Nat.lt_or_ge (rbSize s) (s.capacity_ - 1) with hlt | hge
      · obtain ⟨hret, hinv, habs⟩ := try_push_ok hs v hlt
        obtain ⟨ih1, ih2⟩ := ih (try_push s v).2 hinv hnd'
        refine ⟨ih1, ?_⟩
        show (run (try_push s v).2 ops).2.2 ++
            RBabs (run (try_push s v).2 ops).1 =
            RBabs s ++ ((if (try_push s v).1 then [v] else []) ++
              (run (try_push s v).2 ops).2.1)
        rw [hret, if_pos rfl, ih2, habs, List.append_assoc]
      · have hfull : rbSize s = s.capacity_ - 1 :=
          le_antisymm (rbSize_le_of_Inv hs) hge
        have heqn := try_push_full hs v hfull
        refine ⟨?_, ?_⟩
        · show Inv (run (try_push s v).2 ops).1
          rw [heqn]
          exact (ih s hs hnd').1
        · show (run (try_push s v).2 ops).2.2 ++
              RBabs (run (try_push s v).2 ops).1 =
              RBabs s ++ ((if (try_push s v).1 then [v] else []) ++
                (run (try_push s v).2 ops).2.1)
          rw [heqn]
          simpa using (ih s hs hnd').2
    | tpop =>
      rcases Nat.eq_zero_or_pos (rbSize s) with h0 | h0
      · have heqn := try_pop_empty hs h0
        refine ⟨?_, ?_⟩
        · show Inv (run (try_pop s).2 ops).1
          rw [heqn]
          exact (ih s hs hnd').1
        · show ((try_pop s).1.toList ++ (run (try_pop s).2 ops).2.2) ++
              RBabs (run (try_pop s).2 ops).1 =
              RBabs s ++ (run (try_pop s).2 ops).2.1
          rw [heqn]
          simpa using (ih s hs hnd').2
      · obtain ⟨hret, hinv, habs⟩ := try_pop_ok hs h0
        obtain ⟨ih1, ih2⟩ := ih (try_pop s).2 hinv hnd'
        refine ⟨ih1, ?_⟩
        show ((try_pop s).1.toList ++ (run (try_pop s).2 ops).2.2) ++
            RBabs (run (try_pop s).2 ops).1 =
            RBabs s ++ (run (try_pop s).2 ops).2.1
        rw [hret, List.append_assoc, ih2, habs]
        rfl
    | peek =>
      obtain ⟨ih1, ih2⟩ := ih (front s).2 (front_Inv hs) hnd'
      refine ⟨ih1, ?_⟩
      show (run (front s).2 ops).2.2 ++ RBabs (run (front s).2 ops).1 =
          RBabs s ++ (run (front s).2 ops).2.1
      rw [← front_RBabs s]
      exact ih2
    | deq =>
      exact absurd (List.mem_cons_self _ _) hnd

/-- Pushing a list of values that fits in the remaining space succeeds
entirely and appends the values in order. -/
theorem run_pushAll (vs : List α) : ∀ s : RB α, Inv s →
    rbSize s + vs.length ≤ s.capacity_ - 1 →
    (run s (vs.map Op.push)).2.1 = vs ∧
    (run s (vs.map Op.push)).2.2 = [] ∧
    Inv (run s (vs.map Op.push)).1 ∧
    RBabs (run s (vs.map Op.push)).1 = RBabs s ++ vs := by
  induction vs with
  | nil =>
    intro s hs _
    exact ⟨rfl, rfl, hs, by simp [run]⟩
  | cons v vs ih =>
    intro s hs hlen
    have hlt : rbSize s < s.capacity_ - 1 := by
      simp only [List.length_cons] at hlen
      omega
    obtain ⟨hret, hinv, habs⟩ := try_push_ok hs v hlt
    have hcapeq := (try_push_caps s v).1
    have hlen1 : rbSize (try_push s v).2 + vs.length ≤
        (try_push s v).2.capacity_ - 1 := by
      have e1 := RBabs_length (try_push s v).2
      have e2 := RBabs_length s
      rw [habs, List.length_append, List.length_singleton] at e1
      rw [hcapeq]
      simp only [List.length_cons] at hlen
      omega
    obtain ⟨ih1, ih2, ih3, ih4⟩ := ih (try_push s v).2 hinv hlen1
    refine ⟨?_, ih2, ih3, ?_⟩
    · show (if (try_push s v).1 then [v] else []) ++
          (run (try_push s v).2 (vs.map Op.push)).2.1 = v :: vs
      rw [hret, if_pos rfl, ih1]
      rfl
    · show RBabs (run (try_push s v).2 (vs.map Op.push)).1 =
          RBabs s ++ v :: vs
      rw [ih4, habs, List.append_assoc]
      rfl

/-- Popping as many times as the buffer holds drains it in FIFO order. -/
theorem run_popAll (l : List α) : ∀ s : RB α, Inv s → RBabs s = l →
    (run s (List.replicate l.length Op.tpop)).2.2 = l ∧
    (run s (List.replicate l.length Op.tpop)).2.1 = [] ∧
    Inv (run s (List.replicate l.length Op.tpop)).1 ∧
    RBabs (run s (List.replicate l.length Op.tpop)).1 = [] := by
  induction l with
  | nil =>
    intro s hs habs
    exact ⟨rfl, rfl, hs, habs⟩
  | cons x l ih =>
    intro s hs habs
    have h0 : 0 < rbSize s := by
      have e := RBabs_length s
      rw [habs, List.length_cons] at e
      omega
    obtain ⟨hret, hinv, habs2⟩ := try_pop_ok hs h0
    have hcons := habs.symm.trans habs2
    have hx : s.buffer_ s.head_ = x := (List.cons.inj hcons).1.symm
    have hrest : RBabs (try_pop s).2 = l := (List.cons.inj hcons).2.symm
    obtain ⟨ih1, ih2, ih3, ih4⟩ := ih (try_pop s).2 hinv hrest
    refine ⟨?_, ih2, ih3, ih4⟩
    show (try_pop s).1.toList ++
        (run (try_pop s).2 (List.replicate l.length Op.tpop)).2.2 = x :: l
    rw [hret, hx, ih1]
    rfl

/-! ### The claims -/

/-- C1, counterexample: at requested capacity `1` the code returns
`capacity() == 1` while the claimed formula `next_power_of_two(max(c,1)) - 1`
evaluates to `0` — the claim as stated is false (and inconsistent with its own
"never less than 1" clause). -/
theorem C1_counterexample :
    capacity (construct (α := Nat) 1) = 1 ∧
    next_power_of_2 (max 1 1) - 1 = 0 := by
  decide

/-- C1, amended: for every requested capacity `c`, `capacity()` equals
`max(next_power_of_two(max(c,1)), 2) - 1` — the rounded request clamped below
by the two mandatory slots, minus the reserved slot — and is never less than
`1`; in particular requested capacity `5` yields `capacity() == 7`. -/
theorem C1_capacity_rounding {α : Type} [Inhabited α] (c : Nat) :
    capacity (construct (α := α) c) =
      max (next_power_of_2 (max c 1)) 2 - 1 ∧
    1 ≤ capacity (construct (α := α) c) ∧
    capacity (construct (α := Nat) 5) = 7 := by
  refine ⟨?_, ?_, by decide⟩
  · show (construct (α := α) c).capacity_ - 1 =
      max (next_power_of_2 (max c 1)) 2 - 1
    rw [construct_capacity_]
  · show 1 ≤ (construct (α := α) c).capacity_ - 1
    rw [construct_capacity_]
    have h := Nat.le_max_right (next_power_of_2 (max c 1)) 2
    omega

/-- C1 witness at requested capacity `3`. -/
theorem C1_capacity_rounding_witness :
    capacity (construct (α := Nat) 3) =
      max (next_power_of_2 (max 3 1)) 2 - 1 ∧
    1 ≤ capacity (construct (α := Nat) 3) ∧
    capacity (construct (α := Nat) 5) = 7 :=
  C1_capacity_rounding 3

/-- C2: at requested capacity `1` the constructor's initializer list allocates
`new T[capacity_]` while `capacity_` is still `1`; the body then bumps
`capacity_` to `2` without reallocating, so the allocated slot array has
length `1` (less than the claimed minimum `2`) and `buffer_size()` returns
`2`, which is not the allocated length. -/
theorem C2_alloc_length_bug :
    (construct (α := Nat) 1).allocLen = 1 ∧
    buffer_size (construct (α := Nat) 1) = 2 ∧
    (construct (α := Nat) 1).allocLen ≠
      buffer_size (construct (α := Nat) 1) ∧
    (construct (α := Nat) 1).allocLen < 2 := by
  decide

/-- C3: at requested capacity `1` (allocated array length `1`, but
`index_mask_ == 1`), the call sequence `try_push a; try_pop(); try_push b`
makes the second `try_push` succeed and write `buffer_[1]` — an index not
below the allocated length. -/
theorem C3_out_of_bounds_write :
    try_push_writeIndex
        (try_pop (try_push (construct (α := Nat) 1) 10).2).2 = some 1 ∧
    (try_push (try_pop (try_push (construct (α := Nat) 1) 10).2).2 11).1 =
      true ∧
    (try_pop (try_push (construct (α := Nat) 1) 10).2).2.allocLen = 1 ∧
    ¬(1 : Nat) < (try_pop (try_push (construct (α := Nat) 1) 10).2).2.allocLen := by
  decide

/-- C4: FIFO order.  For any sequence of `try_push`, `try_pop`, and `front`
calls on a freshly constructed buffer, the `try_pop` results followed by the
remaining contents are exactly the successfully pushed values; hence the n-th
popped value is the n-th successfully pushed value. -/
theorem C4_fifo_order {α : Type} [Inhabited α] {c : Nat} (hc : c < 2 ^ 64)
    (ops : List (Op α)) (hnd : Op.deq ∉ ops) :
    (run (construct (α := α) c) ops).2.2 ++
      RBabs (run (construct (α := α) c) ops).1 =
      (run (construct (α := α) c) ops).2.1 ∧
    ∀ i, i < (run (construct (α := α) c) ops).2.2.length →
      (run (construct (α := α) c) ops).2.2[i]? =
      (run (construct (α := α) c) ops).2.1[i]? := by
  have h := (run_spec ops (construct (α := α) c) (construct_Inv hc) hnd).2
  rw [construct_RBabs hc, List.nil_append] at h
  refine ⟨h, ?_⟩
  intro i hi
  rw [← h, List.getElem?_append_left hi]

/-- C4 witness: two pushes, a peek, and two pops on a capacity-3 request. -/
theorem C4_fifo_order_witness :
    (run (construct (α := Nat) 3)
        [Op.push 7, Op.push 8, Op.tpop, Op.peek, Op.tpop]).2.2 ++
      RBabs (run (construct (α := Nat) 3)
        [Op.push 7, Op.push 8, Op.tpop, Op.peek, Op.tpop]).1 =
      (run (construct (α := Nat) 3)
        [Op.push 7, Op.push 8, Op.tpop, Op.peek, Op.tpop]).2.1 ∧
    ∀ i, i < (run (construct (α := Nat) 3)
        [Op.push 7, Op.push 8, Op.tpop, Op.peek, Op.tpop]).2.2.length →
      (run (construct (α := Nat) 3)
        [Op.push 7, Op.push 8, Op.tpop, Op.peek, Op.tpop]).2.2[i]? =
      (run (construct (α := Nat) 3)
        [Op.push 7, Op.push 8, Op.tpop, Op.peek, Op.tpop]).2.1[i]? :=
  C4_fifo_order (by decide) _ (by decide)

/-- C5: full/empty boundary.  From a fresh buffer, pushing exactly
`capacity()` values all succeeds, the next `try_push` returns `false`; after
popping everything (obtaining the values in push order), `front()` and
`try_pop()` report empty. -/
theorem C5_full_empty_boundary {α : Type} [Inhabited α] {c : Nat}
    (hc : c < 2 ^ 64) (vs : List α)
    (hlen : vs.length = capacity (construct (α := α) c)) (w : α) :
    (run (construct (α := α) c) (vs.map Op.push)).2.1 = vs ∧
    (try_push (run (construct (α := α) c) (vs.map Op.push)).1 w).1 = false ∧
    (run (run (construct (α := α) c) (vs.map Op.push)).1
        (List.replicate vs.length Op.tpop)).2.2 = vs ∧
    (front (run (run (construct (α := α) c) (vs.map Op.push)).1
        (List.replicate vs.length Op.tpop)).1).1 = none ∧
    (try_pop (run (run (construct (α := α) c) (vs.map Op.push)).1
        (List.replicate vs.length Op.tpop)).1).1 = none := by
  have hinv0 := construct_Inv (α := α) hc
  have habs0 := construct_RBabs (α := α) hc
  have hsz0 := construct_rbSize (α := α) hc
  have hlen' : vs.length = (construct (α := α) c).capacity_ - 1 := hlen
  obtain ⟨h1, _, h3, h4⟩ := run_pushAll vs (construct (α := α) c) hinv0
    (by rw [hsz0]; omega)
  rw [habs0, List.nil_append] at h4
  have hcap1 := (run_caps (vs.map Op.push) (construct (α := α) c)).1
  have hfull : rbSize (run (construct (α := α) c) (vs.map Op.push)).1 =
      (run (construct (α := α) c) (vs.map Op.push)).1.capacity_ - 1 := by
    have e := RBabs_length (run (construct (α := α) c) (vs.map Op.push)).1
    rw [h4] at e
    rw [← e, hcap1, hlen]
    rfl
  have hpushfail := try_push_full h3 w hfull
  obtain ⟨p1, _, p3, p4⟩ := run_popAll vs
    (run (construct (α := α) c) (vs.map Op.push)).1 h3 h4
  have hempty2 : rbSize (run (run (construct (α := α) c) (vs.map Op.push)).1
      (List.replicate vs.length Op.tpop)).1 = 0 := by
    have e := RBabs_length (run (run (construct (α := α) c) (vs.map Op.push)).1
      (List.replicate vs.length Op.tpop)).1
    rw [p4] at e
    exact e.symm
  refine ⟨h1, by rw [hpushfail], p1, ?_, ?_⟩
  · rw [front_empty p3 hempty2]
  · rw [try_pop_empty p3 hempty2]

/-- C5 witness: seven values into a capacity-7 (requested 5) buffer. -/
theorem C5_full_empty_boundary_witness :
    (run (construct (α := Nat) 5)
        ([1, 2, 3, 4, 5, 6, 7].map Op.push)).2.1 = [1, 2, 3, 4, 5, 6, 7] ∧
    (try_push (run (construct (α := Nat) 5)
        ([1, 2, 3, 4, 5, 6, 7].map Op.push)).1 9).1 = false ∧
    (run (run (construct (α := Nat) 5)
          ([1, 2, 3, 4, 5, 6, 7].map Op.push)).1
        (List.replicate ([1, 2, 3, 4, 5, 6, 7] : List Nat).length
          Op.tpop)).2.2 = [1, 2, 3, 4, 5, 6, 7] ∧
    (front (run (run (construct (α := Nat) 5)
          ([1, 2, 3, 4, 5, 6, 7].map Op.push)).1
        (List.replicate ([1, 2, 3, 4, 5, 6, 7] : List Nat).length
          Op.tpop)).1).1 = none ∧
    (try_pop (run (run (construct (α := Nat) 5)
          ([1, 2, 3, 4, 5, 6, 7].map Op.push)).1
        (List.replicate ([1, 2, 3, 4, 5, 6, 7] : List Nat).length
          Op.tpop)).1).1 = none :=
  C5_full_empty_boundary (by decide) [1, 2, 3, 4, 5, 6, 7] (by decide) 9

/-- C6: `try_pop()` is exactly `front()` followed — on success — by `pop()`:
on a non-empty view it returns the value `front()` points to and reaches the
state `pop()` would produce; on an empty view it returns `none` and leaves the
state exactly as `front()` alone would. -/
theorem C6_try_pop_is_front_then_pop (s : RB α) :
    try_pop s = match front s with
      | (none, s1) => (none, s1)
      | (some v, s1) => (some v, pop s1) := by
  simp only [try_pop, front, pop]
  by_cases h1 : s.head_ = s.tail_cache_
  · by_cases h2 : s.head_ = s.tail_
    · simp only [if_pos h1, if_pos h2]
    · simp only [if_pos h1, if_neg h2]
  · simp only [if_neg h1]

/-- C7: in every state reached from construction by `try_push`, `front`,
`pop`, and `try_pop` calls where `pop` is only used on a non-empty buffer,
`size()` is literally `(tail_ - head_) & index_mask_` and is at most
`capacity()`. -/
theorem C7_size_bound {α : Type} [Inhabited α] {c : Nat} (hc : c < 2 ^ 64)
    (ops : List (Op α))
    (hsafe : safePops (construct (α := α) c) ops = true) :
    size (run (construct (α := α) c) ops).1 =
      sub64 (run (construct (α := α) c) ops).1.tail_
          (run (construct (α := α) c) ops).1.head_ &&&
        (run (construct (α := α) c) ops).1.index_mask_ ∧
    size (run (construct (α := α) c) ops).1 ≤
      capacity (run (construct (α := α) c) ops).1 := by
  refine ⟨rfl, ?_⟩
  obtain ⟨k, _, _, hcap, hmask, _, _, _, _⟩ := construct_spec (α := α) hc
  obtain ⟨hc1, hc2⟩ := run_caps ops (construct (α := α) c)
  rw [size, capacity, hc1, hc2, hcap, hmask]
  have : (2 : Nat) ^ k - 1 = 2 ^ k - 1 := rfl
  exact Nat.and_le_right

/-- C7 witness: a run containing a guarded bare `pop()`. -/
theorem C7_size_bound_witness :
    size (run (construct (α := Nat) 3)
        [Op.push 5, Op.peek, Op.deq, Op.push 6, Op.tpop]).1 =
      sub64 (run (construct (α := Nat) 3)
            [Op.push 5, Op.peek, Op.deq, Op.push 6, Op.tpop]).1.tail_
          (run (construct (α := Nat) 3)
            [Op.push 5, Op.peek, Op.deq, Op.push 6, Op.tpop]).1.head_ &&&
        (run (construct (α := Nat) 3)
          [Op.push 5, Op.peek, Op.deq, Op.push 6, Op.tpop]).1.index_mask_ ∧
    size (run (construct (α := Nat) 3)
        [Op.push 5, Op.peek, Op.deq, Op.push 6, Op.tpop]).1 ≤
      capacity (run (construct (α := Nat) 3)
        [Op.push 5, Op.peek, Op.deq, Op.push 6, Op.tpop]).1 :=
  C7_size_bound (by decide) _ (by decide)

/-- C8: when the slot after `tail_` equals the cached head and still equals
the freshly loaded `head_`, `try_push` returns `false` and the state is
unchanged (the refreshed `head_cache_` is overwritten with its own value). -/
theorem C8_push_full_no_side_effects (s : RB α) (v : α)
    (h1 : (s.tail_ + 1) &&& s.index_mask_ = s.head_cache_)
    (h2 : (s.tail_ + 1) &&& s.index_mask_ = s.head_) :
    try_push s v = (false, s) := by
  simp only [try_push]
  rw [if_pos h1, if_pos h2]
  exact congrArg (fun x => ((false : Bool), { s with head_cache_ := x }))
    (h2.symm.trans h1)

/-- C8 witness: a full buffer of usable capacity 1. -/
theorem C8_push_full_no_side_effects_witness :
    try_push (try_push (construct (α := Nat) 2) 7).2 9 =
      (false, (try_push (construct (α := Nat) 2) 7).2) :=
  C8_push_full_no_side_effects _ 9 (by decide) (by decide)

/-- C9: `front()` is a non-destructive peek: it never changes `head_`,
`tail_`, or any slot, and on a non-empty buffer (in an invariant-satisfying
state) it returns the slot at `head_`; the abstract contents are unchanged, so
the element stays in the buffer until `pop()`. -/
theorem C9_front_nondestructive (s : RB α) (hInv : Inv s) :
    (front s).2.head_ = s.head_ ∧ (front s).2.tail_ = s.tail_ ∧
    (front s).2.buffer_ = s.buffer_ ∧
    (0 < rbSize s → (front s).1 = some (s.buffer_ s.head_)) ∧
    RBabs (front s).2 = RBabs s := by
  obtain ⟨f1, f2, f3, _, _⟩ := front_frame s
  exact ⟨f1, f2, f3, fun h0 => front_some hInv h0, front_RBabs s⟩

/-- C9 witness: the state after one push into a capacity-7 buffer. -/
theorem C9_front_nondestructive_witness :
    (front (try_push (construct (α := Nat) 5) 42).2).2.head_ =
      (try_push (construct (α := Nat) 5) 42).2.head_ ∧
    (front (try_push (construct (α := Nat) 5) 42).2).2.tail_ =
      (try_push (construct (α := Nat) 5) 42).2.tail_ ∧
    (front (try_push (construct (α := Nat) 5) 42).2).2.buffer_ =
      (try_push (construct (α := Nat) 5) 42).2.buffer_ ∧
    (0 < rbSize (try_push (construct (α := Nat) 5) 42).2 →
      (front (try_push (construct (α := Nat) 5) 42).2).1 =
        some ((try_push (construct (α := Nat) 5) 42).2.buffer_
          (try_push (construct (α := Nat) 5) 42).2.head_)) ∧
    RBabs (front (try_push (construct (α := Nat) 5) 42).2).2 =
      RBabs (try_push (construct (α := Nat) 5) 42).2 :=
  C9_front_nondestructive _
    ⟨3, 1, 0, 0, 0, by decide, by decide, by decide, by decide, by decide,
      by decide, by decide, by decide, by decide, by decide, by decide,
      by decide⟩

end SPSC
